import Mathlib

/-!
# Verification of the nirion image version & digest resolution engine

Shallow embedding of the Rust sources of the `nirion` repository
(`nirion-oci-lib/src/version.rs`, `nirion-oci-lib/src/oci.rs`,
`nirion-oci-lib/src/docker_hub.rs`, `nirion-oci-lib/src/unified.rs`,
`nirion-lib/src/lock.rs`, `nirion-bin/src/lock.rs`) together with theorems
settling the specification's claims about them.

Strings are modelled by Lean `String` (a structure over `List Char`); Rust
`&str` slicing operations are embedded as `List Char` computations.
-/

namespace Nirion

/-! ## String primitives (models of Rust `str` methods) -/

/-- Model of Rust `str::trim` on a character list: drop leading and trailing
whitespace.  (Rust trims Unicode `White_Space`; Lean's `Char.isWhitespace`
covers the ASCII subset, which is all the claims exercise.) -/
def charsTrim (cs : List Char) : List Char :=
  ((cs.dropWhile Char.isWhitespace).reverse.dropWhile Char.isWhitespace).reverse

/-- Model of Rust `str::trim`. -/
def strTrim (s : String) : String :=
  ⟨charsTrim s.data⟩

/-- Model of Rust `str::strip_prefix`: `some` of the remainder when `p` is a
prefix of `s`, otherwise `none`. -/
def charsDropPrefix? : List Char → List Char → Option (List Char)
  | [], s => some s
  | _ :: _, [] => none
  | a :: p, b :: s => if a = b then charsDropPrefix? p s else none

/-- Model of Rust `str::strip_suffix`, via reversal. -/
def charsDropSuffix? (p s : List Char) : Option (List Char) :=
  (charsDropPrefix? p.reverse s.reverse).map List.reverse

/-! ## `nirion-oci-lib/src/version.rs` -/

/-- Constant `NON_VERSION_TAGS` from `version.rs`: common floating/branch tags and
architecture tags. -/
def NON_VERSION_TAGS : List String :=
  ["latest", "stable", "nightly", "beta", "edge", "dev", "main", "master",
   "current", "next", "snapshot", "preview", "experimental", "production",
   "mainline",
   "amd64", "x86_64", "386", "i386", "arm64", "aarch64", "arm", "armv6",
   "armv7", "ppc64le", "s390x", "riscv64"]

/-- Constant `TAG_PREFIXES` from `version.rs`: git ref tag prefixes. -/
def TAG_PREFIXES : List String :=
  ["refs/tags/version/", "refs/tags/"]

/-- Constant `TAG_SUFFIXES` from `version.rs`: Debian release suffixes. -/
def TAG_SUFFIXES : List String :=
  ["-bookworm", "-bullseye", "-buster", "-stretch", "-jessie", "-wheezy",
   "-trixie", "-sid"]

/-- Function `strip_any_tag_prefix` from `version.rs`:
`prefixes.iter().find_map(|p| s.strip_prefix(p).filter(|t| !t.is_empty())).unwrap_or(s)`.
The first prefix whose stripping leaves a non-empty remainder wins; a prefix
whose remainder would be empty is skipped and later prefixes are still tried. -/
def strip_any_tag_prefix (s : String) : List String → String
  | [] => s
  | p :: ps =>
    match charsDropPrefix? p.data s.data with
    | some t => if t = [] then strip_any_tag_prefix s ps else ⟨t⟩
    | none => strip_any_tag_prefix s ps

/-- Function `strip_any_tag_suffix` from `version.rs`, same shape with `strip_suffix`. -/
def strip_any_tag_suffix (s : String) : List String → String
  | [] => s
  | p :: ps =>
    match charsDropSuffix? p.data s.data with
    | some t => if t = [] then strip_any_tag_suffix s ps else ⟨t⟩
    | none => strip_any_tag_suffix s ps

/-- Function `clean_tag` from `version.rs`: trim, strip a known prefix, strip a known
suffix. -/
def clean_tag (tag : String) : String :=
  strip_any_tag_suffix ( strip_any_tag_prefix (strTrim tag) TAG_PREFIXES)
    TAG_SUFFIXES

/-- Structure `VersionedImage` from `version.rs`. -/
structure VersionedImage where
  image : String
  version : Option String
  digest : String
deriving DecidableEq, Repr

/-- Function `version_prefix` from `version.rs`: `tag.split('-').next().unwrap_or(tag)`,
i.e. the part of the tag before the first `-` (the whole tag when there is
none). -/
def version_prefix (tag : String) : String :=
  ⟨tag.data.takeWhile (· ≠ '-')⟩

/-- Function `suffix` from `version.rs`: `tag.split_once('-').map(|(_, s)| s)`, i.e. the
part after the first `-` when one exists. -/
def tagSuffix (tag : String) : Option String :=
  if tag.data.any (· = '-') then
    some ⟨(tag.data.dropWhile (· ≠ '-')).tail⟩
  else
    none

/-- Function `normalized_version_prefix` from `version.rs`: the version prefix with an
optional single leading `v` stripped. -/
def normalized_version_prefix (tag : String) : String :=
  let p := version_prefix tag
  match p.data with
  | 'v' :: rest => ⟨rest⟩
  | _ => p

/-- Model of Rust `str::split` on a single separator character, on character
lists.  `splitOnChar c "a-b" = ["a", "b"]`, `splitOnChar c "" = [""]`. -/
def splitOnChar (c : Char) (cs : List Char) : List (List Char) :=
  cs.foldr
    (fun x acc =>
      match acc with
      | h :: t => if x = c then [] :: h :: t else (x :: h) :: t
      | [] => [[]])
    [[]]

/-- Function `version_depth` from `version.rs`: the number of dot-separated segments of
the normalized version prefix consisting purely of ASCII digits.  (An empty
segment counts: `all` is vacuously true, exactly as in the Rust.) -/
def version_depth (tag : String) : Nat :=
  ((splitOnChar '.' ( normalized_version_prefix tag).data).filter
    (fun seg => seg.all Char.isDigit)).length

/-- A numeric identifier of the semver grammar: non-empty, all ASCII digits,
no leading zero (unless the identifier is exactly "0"). -/
def isNumericIdent (cs : List Char) : Bool :=
  !cs.isEmpty && cs.all Char.isDigit &&
    (cs.length = 1 || cs.head? ≠ some '0')

/-- A build-metadata identifier of the semver grammar: non-empty, ASCII
alphanumerics and hyphens. -/
def isBuildIdent (cs : List Char) : Bool :=
  !cs.isEmpty && cs.all (fun c => c.isAlphanum || c = '-')

/-- Model of `semver::Version::parse(s).is_ok()` for inputs free of `-`
(the only inputs `version.rs` feeds it, since `version_prefix` cuts at the
first `-`): `major.minor.patch` numeric identifiers, optionally followed by
`+` and dot-separated build identifiers.  (The crate also bounds the numeric
components by `u64::MAX`; no claim exercises such magnitudes.) -/
def semverParses (s : String) : Bool :=
  let cs := s.data
  let core := cs.takeWhile (· ≠ '+')
  let hasPlus := cs.any (· = '+')
  let build := (cs.dropWhile (· ≠ '+')).tail
  let coreOk :=
    match splitOnChar '.' core with
    | [a, b, c] => isNumericIdent a && isNumericIdent b && isNumericIdent c
    | _ => false
  let buildOk :=
    if hasPlus then
      !build.isEmpty && (splitOnChar '.' build).all isBuildIdent
    else
      true
  coreOk && buildOk

/-- Predicate `parse_semver(tag).is_some()` from `version.rs`: semver-parse the part of
the tag before the first `-` — note: without stripping a leading `v`. -/
def parse_semver_ok (tag : String) : Bool :=
  semverParses ( version_prefix tag)

/-- Function `canonical_version_score` from `version.rs`. -/
def canonical_version_score (tag : String) : Int :=
  if NON_VERSION_TAGS.contains tag then
    -1000
  else
    (if parse_semver_ok tag then 50 else 0)
    + (version_depth tag : Int) * 10
    + (if (tagSuffix tag).isSome then 5 else 0)
    + (if ((tagSuffix tag).map
          (fun s => s.data.any Char.isDigit)).getD false then 5 else 0)

/-- Fold step of Rust `Iterator::max_by_key` / `max_by`: a later element
replaces the current maximum whenever its key is greater *or equal*. -/
def maxStep (key : α → Int) (acc : Option α) (x : α) : Option α :=
  match acc with
  | none => some x
  | some b => if key b ≤ key x then some x else some b

/-- Model of Rust `Iterator::max_by_key`: when several elements are equally
maximum, the *last* one is returned. -/
def maxByKeyLast (key : α → Int) (l : List α) : Option α :=
  l.foldl (maxStep key) none

/-- Function `canonical_version_tag` from `version.rs`: filter out the floating
`NON_VERSION_TAGS`, clean each remaining tag, and take the max-by-score. -/
def canonical_version_tag (tags : List String) : Option String :=
  maxByKeyLast canonical_version_score
    ((tags.filter (fun v => !NON_VERSION_TAGS.contains v)).map clean_tag)

/-! ## `nirion-lib/src/lock.rs` -/

/-- Lock state `LockedImages` from `lock.rs`: a
`BTreeMap<String, VersionedImage>` modelled as an association list iterated in
storage order.  A `BTreeMap` always has unique (sorted) keys; theorems that
need uniqueness take a `Nodup` hypothesis on the mapped keys. -/
abbrev LockedImages := List (String × VersionedImage)

/-- Model of map lookup (`BTreeMap::get` / `HashMap::get`): first matching
key. -/
def mapLookup (m : List (String × β)) (k : String) : Option β :=
  match m with
  | [] => none
  | (k', v) :: t => if k' = k then some v else mapLookup t k

/-- Model of map insertion (`BTreeMap::insert` / `HashMap::insert`): replace
the value at an existing key in place, otherwise add a new entry.  (A real
`BTreeMap` keeps keys sorted; no claim below depends on where a *new* key is
placed.) -/
def mapInsert (k : String) (v : β) : List (String × β) → List (String × β)
  | [] => [(k, v)]
  | (k', v') :: t =>
    if k' = k then (k, v) :: t else (k', v') :: mapInsert k v t

/-- Enum `DiffEntry` from `lock.rs`. -/
inductive DiffEntry where
  | Added (service : String) (new : VersionedImage)
  | Removed (service : String) (old : VersionedImage)
  | Updated (service : String) (old : VersionedImage) (new : VersionedImage)
deriving DecidableEq

/-- Method `LockedImages::diff` from `lock.rs` (`self` is the old state,
`other` the new): iterate the new state pushing `Added` for keys absent from
old and `Updated` for keys whose values differ, then iterate the old state
pushing `Removed` for keys absent from new. -/
def diff (old other : LockedImages) : List DiffEntry :=
  (other.filterMap (fun e =>
    match mapLookup old e.1 with
    | none => some (DiffEntry.Added e.1 e.2)
    | some old_image =>
      if old_image ≠ e.2 then some (DiffEntry.Updated e.1 old_image e.2)
      else none))
  ++ (old.filterMap (fun e =>
    if (mapLookup other e.1).isSome then none
    else some (DiffEntry.Removed e.1 e.2)))

/-! ## JSON (de)serialization of the lock state

Model of `serde_json` as used by the `Serialize`/`Deserialize` impls in
`nirion-lib/src/lock.rs`: a JSON value type, the derived serialization of
`VersionedImage` (fields in declaration order, `None` as `null`), and the
hand-written untagged deserialization (`Full` map tried first, then the
legacy `DigestOnly` map of plain digest strings). -/

/-- JSON document values. -/
inductive Json where
  | nul
  | bool (b : Bool)
  | num (n : Int)
  | str (s : String)
  | arr (elems : List Json)
  | obj (fields : List (String × Json))

/-- Lookup of an object field by name (first occurrence, as the round-trip
and legacy documents never carry duplicate keys). -/
def jsonLookup (fields : List (String × Json)) (k : String) : Option Json :=
  match fields with
  | [] => none
  | (k', v) :: t => if k' = k then some v else jsonLookup t k

/-- Sequence an option-returning function over a list, failing if any element
fails (model of `serde`'s element-wise map deserialization). -/
def mapMOpt (f : α → Option β) : List α → Option (List β)
  | [] => some []
  | x :: t =>
    match f x with
    | none => none
    | some y =>
      match mapMOpt f t with
      | none => none
      | some ys => some (y :: ys)

/-- Derived `Serialize` for `VersionedImage`: an object with fields in
declaration order; `version: None` serializes as `null`. -/
def serializeVersionedImage (vi : VersionedImage) : Json :=
  .obj [("image", .str vi.image),
        ("version", match vi.version with | some v => .str v | none => .nul),
        ("digest", .str vi.digest)]

/-- Hand-written `Serialize` for `LockedImages`: serialize the underlying map
(an object keyed by service, entries in storage order). -/
def serializeLockedImages (m : LockedImages) : Json :=
  .obj (m.map (fun e => (e.1, serializeVersionedImage e.2)))

/-- Derived `Deserialize` for `VersionedImage`: `image` and `digest` must be
strings, `version` may be a string, `null`, or missing (→ `none`); unknown
fields are ignored (serde's default). -/
def deserializeVersionedImage : Json → Option VersionedImage
  | .obj fields => do
    let image ←
      match jsonLookup fields "image" with
      | some (.str s) => some s
      | _ => none
    let version ←
      match jsonLookup fields "version" with
      | none => some none
      | some .nul => some none
      | some (.str s) => some (some s)
      | some _ => none
    let digest ←
      match jsonLookup fields "digest" with
      | some (.str s) => some s
      | _ => none
    some ⟨image, version, digest⟩
  | _ => none

/-- One object entry of the `Repr::Full` schema: the value must deserialize
as a `VersionedImage`. -/
def fullEntry (e : String × Json) : Option (String × VersionedImage) :=
  (deserializeVersionedImage e.2).map (fun vi => (e.1, vi))

/-- One object entry of the legacy `Repr::DigestOnly` schema: the value must
be a plain digest string; the entry becomes a `VersionedImage` with
`image = "<unknown>"` and `version = None`. -/
def digestOnlyEntry (e : String × Json) : Option (String × VersionedImage) :=
  match e.2 with
  | .str d => some (e.1, (⟨"<unknown>", none, d⟩ : VersionedImage))
  | _ => none

/-- Variant `Repr::Full` of the untagged deserializer: an object whose every
value deserializes as a `VersionedImage`, collected into the map. -/
def deserializeFull : Json → Option LockedImages
  | .obj fields =>
    match mapMOpt fullEntry fields with
    | none => none
    | some entries =>
      some (entries.foldl (fun acc e => mapInsert e.1 e.2 acc) [])
  | _ => none

/-- Variant `Repr::DigestOnly` of the untagged deserializer. -/
def deserializeDigestOnly : Json → Option LockedImages
  | .obj fields =>
    match mapMOpt digestOnlyEntry fields with
    | none => none
    | some entries =>
      some (entries.foldl (fun acc e => mapInsert e.1 e.2 acc) [])
  | _ => none

/-- The untagged `Deserialize` impl for `LockedImages`: try the `Full` schema
first, fall back to the legacy `DigestOnly` schema. -/
def deserializeLockedImages (j : Json) : Option LockedImages :=
  match deserializeFull j with
  | some m => some m
  | none => deserializeDigestOnly j

/-! ## `nirion-bin/src/lock.rs` — the concurrent update orchestrator

Resolution itself (the network side of `get_versioned_image` /
`get_updated_versioned_image`) is the supplied capability here; the
orchestrator is parametric over it.  The concurrent `FuturesUnordered` loop
inserts results under distinct service keys, so it is embedded as a
sequential fold; the claims proved below do not depend on completion order. -/

/-- Resolver capability used by the orchestrator (the two `nirion-oci-lib`
entry points it calls, taken as oracles). -/
structure OrchWorld where
  getVersionedImage : String → VersionedImage
  getUpdatedVersionedImage : VersionedImage → VersionedImage

/-- Function `get_cached_image` from `nirion-bin/src/lock.rs`: consult the
digest cache under the image string; on a miss, resolve and populate. -/
def get_cached_image (w : OrchWorld) (image : String)
    (cache : List (String × VersionedImage)) :
    VersionedImage × List (String × VersionedImage) :=
  match mapLookup cache image with
  | some existing => (existing, cache)
  | none =>
    let vi := w.getVersionedImage image
    (vi, mapInsert image vi cache)

/-- Function `get_cached_updated_image` from `nirion-bin/src/lock.rs`: like
`get_cached_image` but keyed by the previous record's image string and using
the update-variant resolver. -/
def get_cached_updated_image (w : OrchWorld) (current : VersionedImage)
    (cache : List (String × VersionedImage)) :
    VersionedImage × List (String × VersionedImage) :=
  match mapLookup cache current.image with
  | some existing => (existing, cache)
  | none =>
    let vi := w.getUpdatedVersionedImage current
    (vi, mapInsert current.image vi cache)

/-- One unit of work of the `update_images` loop: resolve a `(service, image)`
pair (update variant when the service is present in the previous lock, full
resolution otherwise, both through the digest cache) and insert the result
into the accumulated state. -/
def orchStep (w : OrchWorld) (locked : LockedImages)
    (acc : LockedImages × List (String × VersionedImage))
    (e : String × String) : LockedImages × List (String × VersionedImage) :=
  match mapLookup locked e.1 with
  | some current =>
    let r := get_cached_updated_image w current acc.2
    (mapInsert e.1 r.1 acc.1, r.2)
  | none =>
    let r := get_cached_image w e.2 acc.2
    (mapInsert e.1 r.1 acc.1, r.2)

/-- Function `update_images` from `nirion-bin/src/lock.rs`, reduced to its
lock-state effect: an empty image set returns immediately; otherwise every
service is resolved into a copy of the previous state, and the lock file is
written iff the result differs from the previous state.  Returns the computed
state and whether the file was written. -/
def update_images (w : OrchWorld) (images : List (String × String))
    (locked : LockedImages) : LockedImages × Bool :=
  if images.isEmpty then (locked, false)
  else
    let new := (images.foldl (orchStep w locked) (locked, [])).1
    (new, decide (new ≠ locked))

/-! ## External registry capabilities (`oci_client`, `reqwest`, `serde_json`)

The registry wire protocol is a supplied capability (spec §6).  It is
modelled as a `World` of oracle functions; every network or parse operation
is counted in a `Trace`, so that claims about "how many pulls" and
"no re-deriving" are statements about the final trace.  Effectful functions
take and return an explicit `Trace` and propagate errors as `Except`. -/

/-- Error type standing in for `anyhow::Error` / `DockerHubError`. -/
abbrev Err := String

/-- Reference from the external `oci_client` crate, restricted to the
components the embedded code reads (registry host, repository path, optional
tag). -/
structure Reference where
  registry : String
  repository : String
  tag : Option String
deriving DecidableEq

/-- Constructor `Reference::with_tag`. -/
def Reference.with_tag (registry repository tag : String) : Reference :=
  ⟨registry, repository, some tag⟩

/-- Inner `config` object of an OCI config file (the part
`get_version_from_config` reads). -/
structure ConfigBody where
  labels : Option (List (String × String))

/-- OCI image config file (`oci_client::config::ConfigFile`), restricted to
the field the embedded code reads. -/
structure ConfigFile where
  config : Option ConfigBody

/-- Platform entry of an image-index descriptor. -/
structure Platform where
  architecture : String

/-- Descriptor of one entry of an OCI image index. -/
structure OciDescriptor where
  platform : Option Platform
  digest : String

/-- Manifest kind returned by a manifest pull: a single-platform image (whose
payload `get_digest_from_manifest` ignores) or an image index. -/
inductive OciManifest where
  | Image
  | ImageIndex (manifests : List OciDescriptor)

/-- Model of `oci_client::config::Architecture::default()`: the architecture
of the running process, a fixed constant within one run. -/
def defaultArchitecture : String := "amd64"

/-- DockerHub tag-listing entry image (`docker_hub.rs` struct `Image`),
restricted to the fields the embedded code reads. -/
structure HubImage where
  architecture : String
  digest : Option String
deriving DecidableEq

/-- DockerHub tag-listing entry (`docker_hub.rs` struct `Tag`), restricted to
the fields the embedded code reads. -/
structure HubTag where
  name : String
  images : List HubImage
deriving DecidableEq

/-- DockerHub tag-listing response (`docker_hub.rs` struct `TagsResponse`). -/
structure TagsResponse where
  count : Nat
  next : Option String
  previous : Option String
  results : List HubTag
deriving DecidableEq

/-- Operation counters: manifest+config pulls, bare manifest pulls, tag-list
pages, DockerHub page fetches, and config JSON parses. -/
structure Trace where
  manifestConfigPulls : Nat
  manifestPulls : Nat
  tagListPages : Nat
  hubPageFetches : Nat
  configParses : Nat
deriving DecidableEq

/-- The all-zero trace at the start of a run. -/
def Trace.zero : Trace := ⟨0, 0, 0, 0, 0⟩

/-- The external world: `Reference::from_str`, the registry client's pull and
tag-listing endpoints, `serde_json::from_str` on config bytes, and the
DockerHub HTTP GET, all as oracles. -/
structure World where
  refFromStr : String → Except Err Reference
  pullManifestAndConfig : Reference → Except Err (String × String)
  parseConfigFile : String → Except Err ConfigFile
  pullManifest : Reference → Except Err (String × OciManifest)
  listTags : Reference → Nat → Option String → Except Err (List String)
  hubGet : String → Except Err TagsResponse

/-- Instrumented `client.pull_manifest_and_config`: returns `(digest,
raw_config)` and bumps the counter. -/
def pullManifestAndConfigT (w : World) (r : Reference) (t : Trace) :
    Except Err ((String × String) × Trace) :=
  match w.pullManifestAndConfig r with
  | .ok v => .ok (v, { t with manifestConfigPulls := t.manifestConfigPulls + 1 })
  | .error e => .error e

/-- Instrumented `serde_json::from_str::<ConfigFile>`. -/
def parseConfigT (w : World) (raw : String) (t : Trace) :
    Except Err (ConfigFile × Trace) :=
  match w.parseConfigFile raw with
  | .ok c => .ok (c, { t with configParses := t.configParses + 1 })
  | .error e => .error e

/-- Instrumented `client.pull_manifest`. -/
def pullManifestT (w : World) (r : Reference) (t : Trace) :
    Except Err ((String × OciManifest) × Trace) :=
  match w.pullManifest r with
  | .ok v => .ok (v, { t with manifestPulls := t.manifestPulls + 1 })
  | .error e => .error e

/-- Instrumented `client.list_tags` (one page). -/
def listTagsT (w : World) (r : Reference) (pageSize : Nat)
    (last : Option String) (t : Trace) : Except Err (List String × Trace) :=
  match w.listTags r pageSize last with
  | .ok v => .ok (v, { t with tagListPages := t.tagListPages + 1 })
  | .error e => .error e

/-- Instrumented DockerHub HTTP page GET. -/
def hubGetT (w : World) (url : String) (t : Trace) :
    Except Err (TagsResponse × Trace) :=
  match w.hubGet url with
  | .ok v => .ok (v, { t with hubPageFetches := t.hubPageFetches + 1 })
  | .error e => .error e

/-! ## `nirion-oci-lib/src/oci.rs` -/

/-- Function `get_version_from_config` from `oci.rs`: read the
`org.opencontainers.image.version` label, rejecting floating values. -/
def get_version_from_config (config : ConfigFile) : Option String :=
  match config.config with
  | none => none
  | some c =>
    match c.labels with
    | none => none
    | some labels =>
      match mapLookup labels "org.opencontainers.image.version" with
      | none => none
      | some version =>
        if NON_VERSION_TAGS.contains version then none else some version

/-- Function `get_digest_from_manifest` from `oci.rs`: a plain image manifest
keeps the pulled digest; an index selects the entry whose platform matches
the running architecture, failing when none does. -/
def get_digest_from_manifest (digest : String) (manifest : OciManifest) :
    Except Err String :=
  match manifest with
  | .Image => .ok digest
  | .ImageIndex manifests =>
    match manifests.find? (fun m =>
        match m.platform with
        | some platform => platform.architecture = defaultArchitecture
        | none => false) with
    | some descriptor => .ok descriptor.digest
    | none => .error "No matching platform found"

/-- Function `pull_platform_digest` from `oci.rs`. -/
def pull_platform_digest (w : World) (image : Reference) (t : Trace) :
    Except Err (String × Trace) :=
  match pullManifestT w image t with
  | .error e => .error e
  | .ok ((digest, manifest), t) =>
    match get_digest_from_manifest digest manifest with
    | .ok d => .ok (d, t)
    | .error e => .error e

/-- Pagination loop of `list_all_tags` from `oci.rs`: request pages of 100
with the cursor set to the previous page's last tag, stopping on a short
page.  The loop has no bound in the source (a registry could feed it pages
forever); `fuel` bounds the embedding, and exhaustion is an error no theorem
ever reaches. -/
def list_all_tags_loop (w : World) (image : Reference) :
    Nat → Option String → List String → Trace →
    Except Err (List String × Trace)
  | 0, _, _, _ => .error "pagination fuel exhausted"
  | fuel + 1, last, acc, t =>
    match listTagsT w image 100 last t with
    | .error e => .error e
    | .ok (tags, t) =>
      let count := tags.length
      let next := tags.getLast?
      let acc := acc ++ tags
      if count < 100 then .ok (acc, t)
      else list_all_tags_loop w image fuel next acc t

/-- Function `list_all_tags` from `oci.rs`. -/
def list_all_tags (w : World) (image : Reference) (fuel : Nat) (t : Trace) :
    Except Err (List String × Trace) :=
  list_all_tags_loop w image fuel none [] t

/-- First loop of `get_alias_oci_tags`: pull each reversed tag's platform
digest, dropping tags until the first match; the matching tag is *peeked*,
not consumed, so it stays at the head of the remaining list. -/
def skipUntilMatch (w : World) (digest : String) :
    List Reference → Trace → Except Err (List Reference × Trace)
  | [], t => .ok ([], t)
  | r :: rs, t =>
    match pull_platform_digest w r t with
    | .error e => .error e
    | .ok (d, t) =>
      if d = digest then .ok (r :: rs, t)
      else skipUntilMatch w digest rs t

/-- Second loop of `get_alias_oci_tags`: keep pulling digests (the boundary
tag that ended the first loop is pulled *again*), collecting tag names while
they still match, stopping at the first mismatch. -/
def collectWhileMatch (w : World) (digest : String) :
    List Reference → Trace → Except Err (List String × Trace)
  | [], t => .ok ([], t)
  | r :: rs, t =>
    match pull_platform_digest w r t with
    | .error e => .error e
    | .ok (d, t) =>
      if d ≠ digest then .ok ([], t)
      else
        match collectWhileMatch w digest rs t with
        | .error e => .error e
        | .ok (tl, t) =>
          .ok ((match r.tag with | some tag => tag :: tl | none => tl), t)

/-- Function `get_alias_oci_tags` from `oci.rs`: list all tags, walk them in
reverse skipping until the target digest is found, then collect the
contiguous run of matching tags. -/
def get_alias_oci_tags (w : World) (image : Reference) (digest : String)
    (fuel : Nat) (t : Trace) : Except Err (List String × Trace) :=
  match list_all_tags w image fuel t with
  | .error e => .error e
  | .ok (tags, t) =>
    let tag_refs := (tags.map (fun tag =>
      Reference.with_tag image.registry image.repository tag)).reverse
    match skipUntilMatch w digest tag_refs t with
    | .error e => .error e
    | .ok (rest, t) => collectWhileMatch w digest rest t

/-! ## `nirion-oci-lib/src/docker_hub.rs` -/

/-- Constant `DOCKERHUB_BASE` from `docker_hub.rs`. -/
def DOCKERHUB_BASE : String := "https://hub.docker.com/v2"

/-- Function `dockerhub_parts` from `docker_hub.rs`: only `docker.io`
references are supported; a single-component repository gets the `library`
namespace, otherwise the first two path components are used. -/
def dockerhub_parts (reference : Reference) : Except Err (String × String) :=
  if reference.registry ≠ "docker.io" then
    .error "Only docker.io images are supported"
  else
    match splitOnChar '/' reference.repository.data with
    | [] => .ok ("library", "")
    | [first] => .ok ("library", ⟨first⟩)
    | first :: second :: _ => .ok (⟨first⟩, ⟨second⟩)

/-- The tag-listing URL built by `fetch_all_dockerhub_tags` for the first
page. -/
def hubTagsUrl (names repository : String) (page_size : Nat) (page : Nat) :
    String :=
  DOCKERHUB_BASE ++ "/repositories/" ++ names ++ "/" ++ repository
    ++ "/tags?page_size=" ++ toString page_size ++ "&page=" ++ toString page

/-- Pagination loop of `fetch_all_dockerhub_tags`: follow the `next` URL of
each response while one is present (the listed tag count plays no role),
accumulating results and keeping the last response's total `count`.  `fuel`
bounds the unbounded source loop as in `list_all_tags_loop`. -/
def fetch_hub_loop (w : World) :
    Nat → Option String → List HubTag → Nat → Trace →
    Except Err (TagsResponse × Trace)
  | _, none, all_results, total_count, t =>
    .ok (⟨total_count, none, none, all_results⟩, t)
  | 0, some _, _, _, _ => .error "pagination fuel exhausted"
  | fuel + 1, some url, all_results, _total_count, t =>
    match hubGetT w url t with
    | .error e => .error e
    | .ok (body, t) =>
      fetch_hub_loop w fuel body.next (all_results ++ body.results)
        body.count t

/-- Function `fetch_all_dockerhub_tags` from `docker_hub.rs`.  The unused
`total_count` initial value is 0 as in the source. -/
def fetch_all_dockerhub_tags (w : World) (reference : Reference)
    (page_size : Nat) (fuel : Nat) (t : Trace) :
    Except Err (TagsResponse × Trace) :=
  match dockerhub_parts reference with
  | .error e => .error e
  | .ok (names, repository) =>
    fetch_hub_loop w fuel (some (hubTagsUrl names repository page_size 1))
      [] 0 t

/-- Predicate of the `other_tags` filter in `get_alias_dockerhub_tags`: some
image of the (already architecture-filtered) tag carries the target
digest. -/
def hubImageMatches (digest : String) (i : HubImage) : Bool :=
  match i.digest with
  | some d => d = digest
  | none => false

/-- Function `get_alias_dockerhub_tags` from `docker_hub.rs`: fetch all
pages, restrict every tag's images to the current architecture, and keep the
names of tags one of whose remaining images carries the target digest.  No
manifest is ever pulled. -/
def get_alias_dockerhub_tags (w : World) (image : Reference)
    (digest : String) (fuel : Nat) (t : Trace) :
    Except Err (List String × Trace) :=
  match fetch_all_dockerhub_tags w image 100 fuel t with
  | .error e => .error e
  | .ok (resp, t) =>
    let tags := resp.results.map (fun tg =>
      { tg with images :=
          tg.images.filter (fun i => i.architecture = defaultArchitecture) })
    let other_tags := tags.filter (fun tg =>
      tg.images.any (hubImageMatches digest))
    .ok (other_tags.map (fun tg => tg.name), t)

/-! ## `nirion-oci-lib/src/unified.rs` -/

/-- Function `get_alias_tags` from `unified.rs`: dispatch on registry
identity. -/
def get_alias_tags (w : World) (image : Reference) (digest : String)
    (fuel : Nat) (t : Trace) : Except Err (List String × Trace) :=
  if image.registry = "docker.io" then
    get_alias_dockerhub_tags w image digest fuel t
  else
    get_alias_oci_tags w image digest fuel t

/-- Modelled from the spec: `get_version_from_oci_tags` is imported by
`unified.rs` from `oci.rs` but its definition is absent from the provided
sources.  Per spec §4.3 (step 2) and §4.4, the generic-OCI path scans alias
tags and applies the canonical version scorer uniformly afterwards. -/
def get_version_from_oci_tags (w : World) (image : Reference)
    (digest : String) (fuel : Nat) (t : Trace) :
    Except Err (Option String × Trace) :=
  match get_alias_oci_tags w image digest fuel t with
  | .error e => .error e
  | .ok (tags, t) => .ok (canonical_version_tag tags, t)

/-- Function `get_version_from_tags` from `unified.rs`. -/
def get_version_from_tags (w : World) (image : Reference) (digest : String)
    (fuel : Nat) (t : Trace) : Except Err (Option String × Trace) :=
  if image.registry = "docker.io" then
    match get_alias_tags w image digest fuel t with
    | .error e => .error e
    | .ok (alias_tags, t) => .ok (canonical_version_tag alias_tags, t)
  else
    get_version_from_oci_tags w image digest fuel t

/-- Function `get_version_and_digest` from `unified.rs`: pull manifest and
config, try the OCI version label, then alias-tag scanning, else digest
only. -/
def get_version_and_digest (w : World) (image : Reference) (fuel : Nat)
    (t : Trace) : Except Err ((Option String × String) × Trace) :=
  match pullManifestAndConfigT w image t with
  | .error e => .error e
  | .ok ((digest, raw_config), t) =>
    match parseConfigT w raw_config t with
    | .error e => .error e
    | .ok (config, t) =>
      match get_version_from_config config with
      | some version => .ok ((some version, digest), t)
      | none =>
        match get_version_from_tags w image digest fuel t with
        | .error e => .error e
        | .ok (some version, t) => .ok ((some version, digest), t)
        | .ok (none, t) => .ok ((none, digest), t)

/-- Function `get_updated_version_and_digest` from `unified.rs`: re-pull the
manifest (and config bytes); when the digest equals the previous record's,
return the previous version and digest without parsing the config or
scanning tags; otherwise re-resolve in full. -/
def get_updated_version_and_digest (w : World)
    (versioned_image : VersionedImage) (fuel : Nat) (t : Trace) :
    Except Err ((Option String × String) × Trace) :=
  match w.refFromStr versioned_image.image with
  | .error e => .error e
  | .ok image =>
    match pullManifestAndConfigT w image t with
    | .error e => .error e
    | .ok ((digest, raw_config), t) =>
      if digest = versioned_image.digest then
        .ok ((versioned_image.version, versioned_image.digest), t)
      else
        match parseConfigT w raw_config t with
        | .error e => .error e
        | .ok (config, t) =>
          match get_version_from_config config with
          | some version => .ok ((some version, digest), t)
          | none =>
            match get_version_from_tags w image digest fuel t with
            | .error e => .error e
            | .ok (some version, t) => .ok ((some version, digest), t)
            | .ok (none, t) => .ok ((none, digest), t)

/-- Function `get_updated_versioned_image` from `unified.rs`. -/
def get_updated_versioned_image (w : World)
    (versioned_image : VersionedImage) (fuel : Nat) (t : Trace) :
    Except Err (VersionedImage × Trace) :=
  match get_updated_version_and_digest w versioned_image fuel t with
  | .error e => .error e
  | .ok ((version, digest), t) =>
    .ok (⟨versioned_image.image, version, digest⟩, t)

/-! ## Concrete scenario worlds used by the claims -/

/-- Registry world of the generic-OCI alias scenario: one tag-listing page
`["v1", "v2", "v3"]`, platform digest `dv3` for tag `v3` and `target` for
every other tag, all manifests single-platform images.  DockerHub and config
endpoints are unused. -/
def ociScenarioWorld (target dv3 : String) : World :=
  ⟨fun _ => .error "", fun _ => .error "", fun _ => .error "",
   fun r => .ok ((if r.tag = some "v3" then dv3 else target),
     OciManifest.Image),
   fun _ _ _ => .ok ["v1", "v2", "v3"], fun _ => .error ""⟩

/-- DockerHub world with two chained pages: the first page lists a single
non-matching tag `v1` (fewer results than the page size) but carries a
`next` link; the second page lists the matching tag `v2` and ends the
chain. -/
def hubScenarioWorld : World :=
  ⟨fun _ => .error "", fun _ => .error "", fun _ => .error "",
   fun _ => .error "", fun _ _ _ => .error "",
   fun url =>
     if url = "next2" then
       .ok ⟨2, none, none, [⟨"v2", [⟨"amd64", some "shaT"⟩]⟩]⟩
     else
       .ok ⟨2, some "next2", none, [⟨"v1", [⟨"amd64", some "shaO"⟩]⟩]⟩⟩

/-- Registry world of the update short-circuit scenario: the reference
parses, and the manifest pull returns the digest `sha256:abc` with raw config
bytes that would fail to parse — the short-circuit never parses them. -/
def updateScenarioWorld : World :=
  ⟨fun _ => .ok (Reference.with_tag "docker.io" "library/x" "latest"),
   fun _ => .ok ("sha256:abc", "rawcfg"), fun _ => .error "", fun _ => .error "",
   fun _ _ _ => .error "", fun _ => .error ""⟩

/-! ## Helper lemmas -/

theorem strMk_ne_empty {t : List Char} (h : t ≠ []) : (⟨t⟩ : String) ≠ "" := by
  intro he
  apply h
  have hd := congrArg String.data he
  simpa using hd

theorem strip_any_tag_prefix_ne_empty (s : String) (hs : s ≠ "") :
    ∀ ps : List String, strip_any_tag_prefix s ps ≠ "" := by
  intro ps
  induction ps with
  | nil => simpa [ strip_any_tag_prefix] using hs
  | cons p ps ih =>
    rw [ strip_any_tag_prefix]
    cases h : charsDropPrefix? p.data s.data with
    | none => exact ih
    | some t =>
      by_cases ht : t = []
      · simp [ht]
        exact ih
      · simp [ht]
        exact strMk_ne_empty ht

theorem strip_any_tag_suffix_ne_empty (s : String) (hs : s ≠ "") :
    ∀ ss : List String, strip_any_tag_suffix s ss ≠ "" := by
  intro ss
  induction ss with
  | nil => simpa [strip_any_tag_suffix] using hs
  | cons p ps ih =>
    rw [strip_any_tag_suffix]
    cases h : charsDropSuffix? p.data s.data with
    | none => exact ih
    | some t =>
      by_cases ht : t = []
      · simp [ht]
        exact ih
      · simp [ht]
        exact strMk_ne_empty ht

theorem maxStep_none (key : α → Int) (x : α) : maxStep key none x = some x := rfl

theorem maxStep_some (key : α → Int) (b x : α) :
    maxStep key (some b) x = if key b ≤ key x then some x else some b := rfl

theorem foldl_maxStep_spec (key : α → Int) :
    ∀ (l : List α) (b r : α), l.foldl (maxStep key) (some b) = some r →
      ∃ l1 l2, b :: l = l1 ++ r :: l2 ∧ (∀ u ∈ l1, key u ≤ key r) ∧
        (∀ u ∈ l2, key u < key r) := by
  intro l
  induction l with
  | nil =>
    intro b r h
    simp only [List.foldl_nil, Option.some.injEq] at h
    subst h
    exact ⟨[], [], rfl, by simp, by simp⟩
  | cons x xs ih =>
    intro b r h
    simp only [List.foldl_cons] at h
    by_cases hbx : key b ≤ key x
    · rw [maxStep_some, if_pos hbx] at h
      obtain ⟨l1, l2, heq, h1, h2⟩ := ih x r h
      have hxr : key x ≤ key r := by
        cases l1 with
        | nil =>
          simp only [List.nil_append, List.cons.injEq] at heq
          exact le_of_eq (congrArg key heq.1)
        | cons a t =>
          simp only [List.cons_append, List.cons.injEq] at heq
          exact heq.1 ▸ h1 a (List.mem_cons_self a t)
      refine ⟨b :: l1, l2, ?_, ?_, h2⟩
      · rw [List.cons_append, ← heq]
      · intro u hu
        rcases List.mem_cons.mp hu with rfl | hu'
        · exact le_trans hbx hxr
        · exact h1 u hu'
    · rw [maxStep_some, if_neg hbx] at h
      obtain ⟨l1, l2, heq, h1, h2⟩ := ih b r h
      cases l1 with
      | nil =>
        simp only [List.nil_append, List.cons.injEq] at heq
        obtain ⟨rfl, rfl⟩ := heq
        refine ⟨[], x :: xs, by simp, by simp, ?_⟩
        intro u hu
        rcases List.mem_cons.mp hu with rfl | hu'
        · exact lt_of_not_le hbx
        · exact h2 u hu'
      | cons a t =>
        simp only [List.cons_append, List.cons.injEq] at heq
        obtain ⟨rfl, hxs⟩ := heq
        have hbr : key b ≤ key r := h1 b (List.mem_cons_self b t)
        refine ⟨b :: x :: t, l2, ?_, ?_, h2⟩
        · simp [hxs]
        · intro u hu
          rcases List.mem_cons.mp hu with rfl | hu'
          · exact hbr
          rcases List.mem_cons.mp hu' with rfl | hu''
          · exact le_trans (le_of_lt (lt_of_not_le hbx)) hbr
          · exact h1 u (List.mem_cons_of_mem b hu'')

theorem maxByKeyLast_spec (key : α → Int) (l : List α) (r : α)
    (h : maxByKeyLast key l = some r) :
    ∃ l1 l2, l = l1 ++ r :: l2 ∧ (∀ u ∈ l1, key u ≤ key r) ∧
      (∀ u ∈ l2, key u < key r) := by
  cases l with
  | nil => simp [maxByKeyLast] at h
  | cons b xs =>
    have h' : xs.foldl (maxStep key) (some b) = some r := by
      simpa [maxByKeyLast, maxStep] using h
    exact foldl_maxStep_spec key xs b r h'

theorem mem_of_mapLookup_eq_some {m : List (String × β)} {k : String} {v : β}
    (h : mapLookup m k = some v) : (k, v) ∈ m := by
  induction m with
  | nil => simp [mapLookup] at h
  | cons e t ih =>
    obtain ⟨k', v'⟩ := e
    rw [mapLookup] at h
    by_cases hk : k' = k
    · rw [if_pos hk] at h
      obtain rfl := Option.some.inj h
      subst hk
      exact List.mem_cons_self _ _
    · rw [if_neg hk] at h
      exact List.mem_cons_of_mem _ (ih h)

theorem mapLookup_eq_some_of_mem {m : List (String × β)}
    (hm : (m.map Prod.fst).Nodup) {k : String} {v : β} (h : (k, v) ∈ m) :
    mapLookup m k = some v := by
  induction m with
  | nil => simp at h
  | cons e t ih =>
    obtain ⟨k', v'⟩ := e
    simp only [List.map_cons, List.nodup_cons] at hm
    rw [mapLookup]
    rcases List.mem_cons.mp h with heq | hmem
    · obtain ⟨rfl, rfl⟩ := Prod.mk.injEq .. ▸ heq
      · rw [if_pos rfl]
    · have hk : k' ≠ k := by
        rintro rfl
        exact hm.1 (List.mem_map.mpr ⟨(k', v), hmem, rfl⟩)
      rw [if_neg hk]
      exact ih hm.2 hmem

theorem mapLookup_eq_none_iff {m : List (String × β)} {k : String} :
    mapLookup m k = none ↔ k ∉ m.map Prod.fst := by
  induction m with
  | nil => simp [mapLookup]
  | cons e t ih =>
    obtain ⟨k', v'⟩ := e
    rw [mapLookup]
    by_cases hk : k' = k
    · simp [hk]
    · simp [hk, ih, Ne.symm hk]

theorem mapInsert_self {m : List (String × β)} {k : String} {v : β}
    (h : mapLookup m k = some v) : mapInsert k v m = m := by
  induction m with
  | nil => simp [mapLookup] at h
  | cons e t ih =>
    obtain ⟨k', v'⟩ := e
    rw [mapLookup] at h
    rw [mapInsert]
    by_cases hk : k' = k
    · rw [if_pos hk] at h
      obtain rfl := Option.some.inj h
      rw [if_pos hk, hk]
    · rw [if_neg hk] at h
      rw [if_neg hk, ih h]

theorem mapInsert_fresh {m : List (String × β)} {k : String}
    (hk : k ∉ m.map Prod.fst) (v : β) : mapInsert k v m = m ++ [(k, v)] := by
  induction m with
  | nil => rfl
  | cons e t ih =>
    obtain ⟨k', v'⟩ := e
    simp only [List.map_cons, List.mem_cons, not_or] at hk
    rw [mapInsert, if_neg (Ne.symm hk.1), List.cons_append, ih hk.2]

theorem mem_mapInsert {m : List (String × β)} {k : String} {v : β}
    {c : String × β} (h : c ∈ mapInsert k v m) : c = (k, v) ∨ c ∈ m := by
  induction m with
  | nil => simpa [mapInsert] using h
  | cons e t ih =>
    obtain ⟨k', v'⟩ := e
    rw [mapInsert] at h
    by_cases hk : k' = k
    · rw [if_pos hk] at h
      rcases List.mem_cons.mp h with rfl | hm
      · exact Or.inl rfl
      · exact Or.inr (List.mem_cons_of_mem _ hm)
    · rw [if_neg hk] at h
      rcases List.mem_cons.mp h with rfl | hm
      · exact Or.inr (List.mem_cons_self _ _)
      · rcases ih hm with h' | h'
        · exact Or.inl h'
        · exact Or.inr (List.mem_cons_of_mem _ h')

theorem foldl_mapInsert_fresh (l : List (String × β)) :
    ∀ acc : List (String × β),
      (∀ e ∈ l, e.1 ∉ acc.map Prod.fst) → (l.map Prod.fst).Nodup →
      l.foldl (fun acc e => mapInsert e.1 e.2 acc) acc = acc ++ l := by
  induction l with
  | nil => intro acc _ _; simp
  | cons e t ih =>
    intro acc hdis hnd
    simp only [List.map_cons, List.nodup_cons] at hnd
    rw [List.foldl_cons,
      mapInsert_fresh (hdis e (List.mem_cons_self e t)) e.2]
    rw [ih (acc ++ [(e.1, e.2)]) ?_ hnd.2]
    · simp
    · intro x hx
      simp only [List.map_append, List.mem_append, not_or]
      refine ⟨hdis x (List.mem_cons_of_mem e hx), ?_⟩
      simp only [List.map_cons, List.map_nil, List.mem_singleton]
      intro hxe
      exact hnd.1 (hxe ▸ List.mem_map.mpr ⟨x, hx, rfl⟩)

theorem foldl_mapInsert_id (l : List (String × β))
    (hl : (l.map Prod.fst).Nodup) :
    l.foldl (fun acc e => mapInsert e.1 e.2 acc) [] = l := by
  simpa using foldl_mapInsert_fresh l [] (by simp) hl

theorem added_mem_diff_iff (old other : LockedImages)
    (hnew : (other.map Prod.fst).Nodup) (s : String) (v : VersionedImage) :
    DiffEntry.Added s v ∈ diff old other
      ↔ mapLookup old s = none ∧ mapLookup other s = some v := by
  constructor
  · intro h
    rcases List.mem_append.mp h with h1 | h2
    · obtain ⟨e, he, hfe⟩ := List.mem_filterMap.mp h1
      obtain ⟨k, val⟩ := e
      rcases hl : mapLookup old k with _ | o
      · rw [hl] at hfe
        simp only [Option.some.injEq, DiffEntry.Added.injEq] at hfe
        obtain ⟨rfl, rfl⟩ := hfe
        exact ⟨hl, mapLookup_eq_some_of_mem hnew he⟩
      · rw [hl] at hfe
        by_cases ho : o ≠ val <;> simp [ho] at hfe
    · obtain ⟨e, he, hfe⟩ := List.mem_filterMap.mp h2
      by_cases hs : (mapLookup other e.1).isSome <;> simp [hs] at hfe
  · rintro ⟨hold, hother⟩
    refine List.mem_append.mpr (Or.inl (List.mem_filterMap.mpr
      ⟨(s, v), mem_of_mapLookup_eq_some hother, ?_⟩))
    rw [hold]

theorem updated_mem_diff_iff (old other : LockedImages)
    (hnew : (other.map Prod.fst).Nodup) (s : String)
    (ov nv : VersionedImage) :
    DiffEntry.Updated s ov nv ∈ diff old other
      ↔ mapLookup old s = some ov ∧ mapLookup other s = some nv ∧ ov ≠ nv := by
  constructor
  · intro h
    rcases List.mem_append.mp h with h1 | h2
    · obtain ⟨e, he, hfe⟩ := List.mem_filterMap.mp h1
      obtain ⟨k, val⟩ := e
      rcases hl : mapLookup old k with _ | o
      · rw [hl] at hfe
        simp at hfe
      · rw [hl] at hfe
        simp at hfe
        obtain ⟨hne', rfl, rfl, rfl⟩ := hfe
        exact ⟨hl, mapLookup_eq_some_of_mem hnew he, hne'⟩
    · obtain ⟨e, he, hfe⟩ := List.mem_filterMap.mp h2
      by_cases hs : (mapLookup other e.1).isSome <;> simp [hs] at hfe
  · rintro ⟨hold, hother, hne⟩
    refine List.mem_append.mpr (Or.inl (List.mem_filterMap.mpr
      ⟨(s, nv), mem_of_mapLookup_eq_some hother, ?_⟩))
    rw [hold]
    simp [hne]

theorem removed_mem_diff_iff (old other : LockedImages)
    (hold : (old.map Prod.fst).Nodup) (s : String) (ov : VersionedImage) :
    DiffEntry.Removed s ov ∈ diff old other
      ↔ mapLookup old s = some ov ∧ mapLookup other s = none := by
  constructor
  · intro h
    rcases List.mem_append.mp h with h1 | h2
    · obtain ⟨e, he, hfe⟩ := List.mem_filterMap.mp h1
      rcases hl : mapLookup old e.1 with _ | o
      · rw [hl] at hfe
        simp at hfe
      · rw [hl] at hfe
        by_cases ho : o ≠ e.2 <;> simp [ho] at hfe
    · obtain ⟨e, he, hfe⟩ := List.mem_filterMap.mp h2
      obtain ⟨k, val⟩ := e
      by_cases hs : (mapLookup other k).isSome
      · simp [hs] at hfe
      · rw [if_neg hs] at hfe
        simp only [Option.some.injEq, DiffEntry.Removed.injEq] at hfe
        obtain ⟨rfl, rfl⟩ := hfe
        exact ⟨mapLookup_eq_some_of_mem hold he,
          Option.not_isSome_iff_eq_none.mp hs⟩
  · rintro ⟨holds, hother⟩
    refine List.mem_append.mpr (Or.inr (List.mem_filterMap.mpr
      ⟨(s, ov), mem_of_mapLookup_eq_some holds, ?_⟩))
    rw [if_neg (by simp [hother])]

theorem deserializeVersionedImage_serialize (vi : VersionedImage) :
    deserializeVersionedImage (serializeVersionedImage vi) = some vi := by
  have h1 : ¬("image" : String) = "version" := by decide
  have h2 : ¬("image" : String) = "digest" := by decide
  have h3 : ¬("version" : String) = "digest" := by decide
  obtain ⟨image, version, digest⟩ := vi
  cases version <;>
    simp [serializeVersionedImage, deserializeVersionedImage, jsonLookup,
      h1, h2, h3]

theorem mapMOpt_serialized (m : LockedImages) :
    mapMOpt fullEntry
      (m.map (fun e => (e.1, serializeVersionedImage e.2))) = some m := by
  induction m with
  | nil => rfl
  | cons e t ih =>
    simp [mapMOpt, fullEntry, deserializeVersionedImage_serialize, ih]

theorem mapMOpt_legacy (legacy : List (String × String)) :
    mapMOpt digestOnlyEntry (legacy.map (fun e => (e.1, Json.str e.2)))
      = some (legacy.map
          (fun e => (e.1, (⟨"<unknown>", none, e.2⟩ : VersionedImage)))) := by
  induction legacy with
  | nil => rfl
  | cons e t ih => simp only [List.map_cons, mapMOpt, digestOnlyEntry, ih]

theorem orch_fold_inv (w : OrchWorld) (locked : LockedImages)
    (images : List (String × String))
    (h1 : ∀ e ∈ images, ∃ prev, mapLookup locked e.1 = some prev ∧
      w.getUpdatedVersionedImage prev = prev)
    (h2 : ∀ e1 ∈ images, ∀ e2 ∈ images, ∀ p1 p2,
      mapLookup locked e1.1 = some p1 → mapLookup locked e2.1 = some p2 →
      p1.image = p2.image → p1 = p2) :
    ∀ l : List (String × String), (∀ e ∈ l, e ∈ images) →
    ∀ cache : List (String × VersionedImage),
      (∀ c ∈ cache, ∃ e ∈ images, ∃ p, mapLookup locked e.1 = some p ∧
        c = (p.image, p)) →
      (l.foldl (orchStep w locked) (locked, cache)).1 = locked := by
  intro l
  induction l with
  | nil => intro _ _ _; rfl
  | cons e t ih =>
    intro hl cache hcache
    have he : e ∈ images := hl e (List.mem_cons_self e t)
    obtain ⟨prev, hprev, hupd⟩ := h1 e he
    rw [List.foldl_cons]
    have htail : ∀ x ∈ t, x ∈ images :=
      fun x hx => hl x (List.mem_cons_of_mem e hx)
    rcases hc : mapLookup cache prev.image with _ | existing
    · have horch : orchStep w locked (locked, cache) e
          = (locked, mapInsert prev.image prev cache) := by
        simp only [orchStep, hprev, get_cached_updated_image, hc, hupd,
          mapInsert_self hprev]
      rw [horch]
      apply ih htail
      intro c hcmem
      rcases mem_mapInsert hcmem with rfl | hcmem'
      · exact ⟨e, he, prev, hprev, rfl⟩
      · exact hcache c hcmem'
    · have hex : existing = prev := by
        obtain ⟨e', he', p, hp, hcp⟩ :=
          hcache _ (mem_of_mapLookup_eq_some hc)
        obtain ⟨hk, hv⟩ := Prod.mk.injEq .. ▸ hcp
        rw [hv]
        exact h2 e' he' e he p prev hp hprev hk.symm
      subst hex
      have horch : orchStep w locked (locked, cache) e = (locked, cache) := by
        simp only [orchStep, hprev, get_cached_updated_image, hc,
          mapInsert_self hprev]
      rw [horch]
      exact ih htail cache hcache

theorem tag_with_tag (registry repository tag : String) :
    (Reference.with_tag registry repository tag).tag = some tag := rfl

theorem fetch_hub_loop_preserves (w : World) :
    ∀ (fuel : Nat) (next : Option String) (acc : List HubTag) (cnt : Nat)
      (t : Trace) (resp : TagsResponse) (t' : Trace),
      fetch_hub_loop w fuel next acc cnt t = .ok (resp, t') →
      t'.manifestPulls = t.manifestPulls
      ∧ t'.manifestConfigPulls = t.manifestConfigPulls
      ∧ t'.tagListPages = t.tagListPages
      ∧ t'.configParses = t.configParses := by
  intro fuel
  induction fuel with
  | zero =>
    intro next acc cnt t resp t' h
    cases next with
    | none =>
      simp only [fetch_hub_loop, Except.ok.injEq, Prod.mk.injEq] at h
      obtain ⟨-, rfl⟩ := h
      exact ⟨rfl, rfl, rfl, rfl⟩
    | some url => simp [fetch_hub_loop] at h
  | succ fuel ih =>
    intro next acc cnt t resp t' h
    cases next with
    | none =>
      simp only [fetch_hub_loop, Except.ok.injEq, Prod.mk.injEq] at h
      obtain ⟨-, rfl⟩ := h
      exact ⟨rfl, rfl, rfl, rfl⟩
    | some url =>
      rw [fetch_hub_loop, hubGetT] at h
      rcases hg : w.hubGet url with e | body
      · rw [hg] at h
        exact absurd h (by simp)
      · rw [hg] at h
        dsimp only at h
        exact ih body.next (acc ++ body.results) body.count
          { t with hubPageFetches := t.hubPageFetches + 1 } resp t' h

theorem hub_filter_fusion (results : List HubTag) (digest : String) :
    ((results.map (fun tg =>
      { tg with
        images := tg.images.filter
          (fun i => i.architecture = defaultArchitecture) })).filter
        (fun tg => tg.images.any (hubImageMatches digest))).map
          (fun tg => tg.name)
    = (results.filter (fun tg =>
        (tg.images.filter (fun i => i.architecture = defaultArchitecture)).any
          (hubImageMatches digest))).map (fun tg => tg.name) := by
  induction results with
  | nil => rfl
  | cons tg t ih =>
    by_cases hp : (tg.images.filter
        (fun i => i.architecture = defaultArchitecture)).any
          (hubImageMatches digest)
    · simp only [List.map_cons, List.filter_cons, hp, if_true, ih]
    · simp only [List.map_cons, List.filter_cons, hp, if_false]
      simp [ih]

/-! ## Claims about the canonical version scorer (`version.rs`) -/

/-- C3, counterexample.  The claim says `canonical_version_tag` returns the
earliest-encountered candidate of maximal score and is invariant under
reordering of its input.  In the source, Rust's `Iterator::max_by_key` returns
the *last* maximal element: on the tied candidates `"1.2.3"` and `"2.3.4"`
(both score 80) the function returns whichever comes last, so reversing the
input list changes the answer. -/
theorem canonical_version_tag_reorder_counterexample :
    canonical_version_tag ["1.2.3", "2.3.4"] = some "2.3.4"
    ∧ canonical_version_tag ["2.3.4", "1.2.3"] = some "1.2.3"
    ∧ canonical_version_score "1.2.3" = canonical_version_score "2.3.4"
    ∧ ("2.3.4" : String) ≠ "1.2.3" := by
  refine ⟨by decide, by decide, by decide, by decide⟩

/-- C3, amended.  `canonical_version_tag` returns the *latest*-encountered
candidate of maximal score: the cleaned candidate list decomposes as
`l1 ++ v :: l2` where every earlier candidate scores at most the result and
every later candidate scores strictly less.  (The result is therefore always
of maximal score, but reordering the input can change it when distinct
candidates tie for the maximum.) -/
theorem canonical_version_tag_last_max (tags : List String) (v : String)
    (h : canonical_version_tag tags = some v) :
    ∃ l1 l2,
      (tags.filter (fun t => !NON_VERSION_TAGS.contains t)).map clean_tag
        = l1 ++ v :: l2
      ∧ (∀ u ∈ l1, canonical_version_score u ≤ canonical_version_score v)
      ∧ (∀ u ∈ l2, canonical_version_score u < canonical_version_score v) :=
  maxByKeyLast_spec canonical_version_score _ v h

/-- Witness for C3 amended: instantiated on the concrete tied input. -/
theorem canonical_version_tag_last_max_witness :
    ∃ l1 l2,
      ((["1.2.3", "2.3.4"].filter
        (fun t => !NON_VERSION_TAGS.contains t)).map clean_tag)
        = l1 ++ "2.3.4" :: l2
      ∧ (∀ u ∈ l1,
          canonical_version_score u ≤ canonical_version_score "2.3.4")
      ∧ (∀ u ∈ l2,
          canonical_version_score u < canonical_version_score "2.3.4") :=
  canonical_version_tag_last_max ["1.2.3", "2.3.4"] "2.3.4" (by decide)

/-- C4, counterexample.  The claim says the +50 semver bonus is awarded when
the part before the first `-` parses as a semantic version *after stripping an
optional leading `v`*, so that `"v1.2.3"` would score 50 + 30 = 80.  In the
source, `parse_semver` parses `version_prefix(tag)` — not
`normalized_version_prefix(tag)` — so the leading `v` is *not* stripped and
`"v1.2.3"` scores only its depth component, 30. -/
theorem canonical_version_score_v_prefix_counterexample :
    semverParses ( normalized_version_prefix "v1.2.3") = true
    ∧ parse_semver_ok "v1.2.3" = false
    ∧ canonical_version_score "v1.2.3" = 30
    ∧ (30 : Int) ≠ 80 := by
  refine ⟨by decide, by decide, by decide, by decide⟩

/-- C4, amended.  The +50 semver bonus is awarded exactly when the part before
the first `-` parses as a semantic version *as written* (no leading-`v`
stripping): under that condition the score is 50 plus the depth and suffix
components. -/
theorem canonical_version_score_semver_bonus (tag : String)
    (h1 : NON_VERSION_TAGS.contains tag = false)
    (h2 : semverParses ( version_prefix tag) = true) :
    canonical_version_score tag
      = 50 + (version_depth tag : Int) * 10
        + (if (tagSuffix tag).isSome then 5 else 0)
        + (if ((tagSuffix tag).map
              (fun s => s.data.any Char.isDigit)).getD false then 5 else 0) := by
  simp only [canonical_version_score, parse_semver_ok, h1, h2, if_true,
    Bool.false_eq_true, if_false]

/-- Witness for C4 amended: `"1.2.3-r1"` has a parseable semver core, depth 3,
and a digit-bearing suffix, so it scores 50 + 30 + 5 + 5 = 90. -/
theorem canonical_version_score_semver_bonus_witness :
    canonical_version_score "1.2.3-r1"
      = 50 + (version_depth "1.2.3-r1" : Int) * 10
        + (if (tagSuffix "1.2.3-r1").isSome then 5 else 0)
        + (if ((tagSuffix "1.2.3-r1").map
              (fun s => s.data.any Char.isDigit)).getD false then 5 else 0) :=
  canonical_version_score_semver_bonus "1.2.3-r1" (by decide) (by decide)

/-- C9, counterexample.  The claim says that whenever stripping a recognized
prefix would produce the empty string the original tag is returned unmodified.
For the tag `"refs/tags/version/"` — itself a recognized prefix token —
stripping that prefix is indeed skipped (empty remainder), but the *shorter*
recognized prefix `"refs/tags/"` is then stripped, so the function returns
`"version/"`, not the original tag. -/
theorem clean_tag_prefix_token_counterexample :
    ("refs/tags/version/" : String) ∈ TAG_PREFIXES
    ∧ charsDropPrefix? "refs/tags/version/".data "refs/tags/version/".data
        = some []
    ∧ clean_tag "refs/tags/version/" = "version/"
    ∧ clean_tag "refs/tags/version/" ≠ "refs/tags/version/" := by
  refine ⟨by decide, by decide, by decide, by decide⟩

/-- C9, amended.  Each individual prefix or suffix strip is applied only when
it leaves a non-empty remainder; a strip that would leave the empty string is
skipped, though a different recognized prefix or suffix may still be stripped.
Consequently neither stripping helper nor `clean_tag` ever returns the empty
string on input whose trimmed form is non-empty. -/
theorem clean_tag_nonempty (tag : String) (h : strTrim tag ≠ "") :
    clean_tag tag ≠ "" := by
  unfold clean_tag
  exact strip_any_tag_suffix_ne_empty _
    (strip_any_tag_prefix_ne_empty _ h TAG_PREFIXES) TAG_SUFFIXES

/-- Witness for C9 amended: a plain tag cleans to a non-empty string. -/
theorem clean_tag_nonempty_witness : clean_tag "latest" ≠ "" :=
  clean_tag_nonempty "latest" (by decide)

/-- C10.  `canonical_version_tag` returns the *cleaned* form of the winning
candidate: whenever it returns `some v`, `v` is `clean_tag` of some input tag
(and hence, as the witness shows on `["1.2.3-bookworm"]`, possibly not equal
to any tag of the input list). -/
theorem canonical_version_tag_returns_cleaned (tags : List String) (v : String)
    (h : canonical_version_tag tags = some v) :
    ∃ t ∈ tags, v = clean_tag t := by
  obtain ⟨l1, l2, heq, -, -⟩ :=
    maxByKeyLast_spec canonical_version_score _ v h
  have hv : v ∈ (tags.filter (fun t => !NON_VERSION_TAGS.contains t)).map
      clean_tag := by
    rw [heq]
    exact List.mem_append_right l1 (List.mem_cons_self v l2)
  obtain ⟨t, ht, rfl⟩ := List.mem_map.mp hv
  exact ⟨t, List.mem_of_mem_filter ht, rfl⟩

/-- Witness for C10: on the singleton input `["1.2.3-bookworm"]` the result is
`"1.2.3"`, the cleaned form of the lone tag — a string that is not itself a
tag of the input list. -/
theorem canonical_version_tag_returns_cleaned_witness :
    (∃ t ∈ ["1.2.3-bookworm"], "1.2.3" = clean_tag t)
    ∧ canonical_version_tag ["1.2.3-bookworm"] = some "1.2.3"
    ∧ ("1.2.3" : String) ∉ ["1.2.3-bookworm"] :=
  ⟨canonical_version_tag_returns_cleaned ["1.2.3-bookworm"] "1.2.3" (by decide),
    by decide, by decide⟩

/-! ## Claims about the lock state (`nirion-lib/src/lock.rs`,
`nirion-bin/src/lock.rs`) -/

/-- C6.  `diff(old, new)` emits `Added` exactly for keys present only in the
new state, `Updated` exactly for keys present in both with structurally
unequal values, `Removed` exactly for keys present only in the old state; no
key appears in two categories; and `diff(S, S) = []`. -/
theorem diff_partition (old other : LockedImages)
    (h1 : (old.map Prod.fst).Nodup) (h2 : (other.map Prod.fst).Nodup) :
    (∀ s v, DiffEntry.Added s v ∈ diff old other
      ↔ mapLookup old s = none ∧ mapLookup other s = some v)
    ∧ (∀ s ov nv, DiffEntry.Updated s ov nv ∈ diff old other
      ↔ mapLookup old s = some ov ∧ mapLookup other s = some nv ∧ ov ≠ nv)
    ∧ (∀ s ov, DiffEntry.Removed s ov ∈ diff old other
      ↔ mapLookup old s = some ov ∧ mapLookup other s = none)
    ∧ (∀ s v, DiffEntry.Added s v ∈ diff old other →
        (∀ ov nv, DiffEntry.Updated s ov nv ∉ diff old other)
        ∧ (∀ ov, DiffEntry.Removed s ov ∉ diff old other))
    ∧ (∀ s ov nv, DiffEntry.Updated s ov nv ∈ diff old other →
        ∀ ov', DiffEntry.Removed s ov' ∉ diff old other)
    ∧ (old = other → diff old other = []) := by
  refine ⟨added_mem_diff_iff old other h2, updated_mem_diff_iff old other h2,
    removed_mem_diff_iff old other h1, ?_, ?_, ?_⟩
  · intro s v hadd
    obtain ⟨ho, -⟩ := (added_mem_diff_iff old other h2 s v).mp hadd
    constructor
    · intro ov nv hupd
      obtain ⟨ho', -, -⟩ :=
        (updated_mem_diff_iff old other h2 s ov nv).mp hupd
      rw [ho] at ho'
      exact Option.noConfusion ho'
    · intro ov hrem
      obtain ⟨ho', -⟩ := (removed_mem_diff_iff old other h1 s ov).mp hrem
      rw [ho] at ho'
      exact Option.noConfusion ho'
  · intro s ov nv hupd ov' hrem
    obtain ⟨-, hother, -⟩ :=
      (updated_mem_diff_iff old other h2 s ov nv).mp hupd
    obtain ⟨-, hnone⟩ := (removed_mem_diff_iff old other h1 s ov').mp hrem
    rw [hnone] at hother
    exact Option.noConfusion hother
  · rintro rfl
    unfold diff
    rw [List.append_eq_nil]
    constructor
    · rw [List.filterMap_eq_nil_iff]
      intro e he
      have hl : mapLookup old e.1 = some e.2 :=
        mapLookup_eq_some_of_mem h1 (by simpa using he)
      simp [hl]
    · rw [List.filterMap_eq_nil_iff]
      intro e he
      have hl : mapLookup old e.1 = some e.2 :=
        mapLookup_eq_some_of_mem h1 (by simpa using he)
      simp [hl]

/-- Witness for C6 on concrete two-entry states: the key present only in the
new state is reported as `Added`. -/
theorem diff_partition_witness :
    DiffEntry.Added "c" (⟨"imgC", some "3", "shaC"⟩ : VersionedImage)
      ∈ diff
        [("a", (⟨"imgA", some "1", "shaA"⟩ : VersionedImage)),
         ("b", (⟨"imgB", none, "shaB"⟩ : VersionedImage))]
        [("a", (⟨"imgA", some "2", "shaA2"⟩ : VersionedImage)),
         ("c", (⟨"imgC", some "3", "shaC"⟩ : VersionedImage))] :=
  ((diff_partition
      [("a", ⟨"imgA", some "1", "shaA"⟩), ("b", ⟨"imgB", none, "shaB"⟩)]
      [("a", ⟨"imgA", some "2", "shaA2"⟩), ("c", ⟨"imgC", some "3", "shaC"⟩)]
      (by decide) (by decide)).1 "c" _).mpr (by decide)

/-- C7.  Serialize-then-deserialize is the identity on lock states (current
schema), and a legacy digest-only object deserializes into entries with that
digest, `version = none` and `image = "<unknown>"`. -/
theorem lockedImages_roundtrip (m : LockedImages)
    (hm : (m.map Prod.fst).Nodup) :
    deserializeLockedImages (serializeLockedImages m) = some m
    ∧ ∀ legacy : List (String × String), (legacy.map Prod.fst).Nodup →
      deserializeLockedImages
          (Json.obj (legacy.map (fun e => (e.1, Json.str e.2))))
        = some (legacy.map
            (fun e => (e.1, (⟨"<unknown>", none, e.2⟩ : VersionedImage)))) := by
  constructor
  · have hfull : deserializeFull (Json.obj
        (m.map (fun e => (e.1, serializeVersionedImage e.2)))) = some m := by
      simp only [deserializeFull, mapMOpt_serialized]
      rw [foldl_mapInsert_id m hm]
    simp only [serializeLockedImages, deserializeLockedImages, hfull]
  · intro legacy hleg
    cases legacy with
    | nil => rfl
    | cons e t =>
      have hkeys : (((e :: t).map (fun x =>
          (x.1, (⟨"<unknown>", none, x.2⟩ : VersionedImage)))).map
            Prod.fst).Nodup := by
        simpa [List.map_map, Function.comp] using hleg
      have hfull : deserializeFull (Json.obj
          ((e :: t).map (fun x => (x.1, Json.str x.2)))) = none := by
        simp [deserializeFull, mapMOpt, fullEntry, deserializeVersionedImage]
      have hdig : deserializeDigestOnly (Json.obj
          ((e :: t).map (fun x => (x.1, Json.str x.2))))
          = some ((e :: t).map (fun x =>
              (x.1, (⟨"<unknown>", none, x.2⟩ : VersionedImage)))) := by
        simp only [deserializeDigestOnly, mapMOpt_legacy]
        rw [foldl_mapInsert_id _ hkeys]
      simp only [deserializeLockedImages, hfull, hdig]

/-- Witness for C7: a concrete one-entry round trip and a concrete legacy
document. -/
theorem lockedImages_roundtrip_witness :
    deserializeLockedImages (serializeLockedImages
        [("svc", (⟨"img", some "1.2", "sha"⟩ : VersionedImage))])
      = some [("svc", (⟨"img", some "1.2", "sha"⟩ : VersionedImage))]
    ∧ deserializeLockedImages (Json.obj [("svc", Json.str "shaX")])
      = some [("svc", (⟨"<unknown>", none, "shaX"⟩ : VersionedImage))] :=
  ⟨(lockedImages_roundtrip
      [("svc", ⟨"img", some "1.2", "sha"⟩)] (by decide)).1,
   (lockedImages_roundtrip [] (by decide)).2 [("svc", "shaX")] (by decide)⟩

/-- C8.  `update_images` writes the lock file iff the newly computed state
differs from the prior one: the write flag is true exactly when the computed
state is not the previous state; an empty image set writes nothing; and when
every service is already locked and its (cache-consistent) re-resolution
returns the previous record unchanged, the state is unchanged and no write
occurs. -/
theorem update_images_write_iff (w : OrchWorld)
    (images : List (String × String)) (locked : LockedImages) :
    ((update_images w images locked).2 = true
      ↔ (update_images w images locked).1 ≠ locked)
    ∧ (images = [] → update_images w images locked = (locked, false))
    ∧ ((∀ e ∈ images, ∃ prev, mapLookup locked e.1 = some prev ∧
          w.getUpdatedVersionedImage prev = prev) →
       (∀ e1 ∈ images, ∀ e2 ∈ images, ∀ p1 p2,
          mapLookup locked e1.1 = some p1 → mapLookup locked e2.1 = some p2 →
          p1.image = p2.image → p1 = p2) →
       update_images w images locked = (locked, false)) := by
  refine ⟨?_, ?_, ?_⟩
  · rw [update_images]
    cases himg : images.isEmpty with
    | true => simp
    | false => simp
  · intro h
    subst h
    rfl
  · intro hall hinj
    rw [update_images]
    cases himg : images.isEmpty with
    | true => simp
    | false =>
      have hnew : (images.foldl (orchStep w locked) (locked, [])).1 = locked :=
        orch_fold_inv w locked images hall hinj images (fun _ he => he) []
          (by simp)
      simp [hnew]

/-- Witness for C8: one already-locked service whose update-resolution is the
identity; the state is returned unchanged and nothing is written. -/
theorem update_images_write_iff_witness :
    update_images
        (OrchWorld.mk (fun i => ⟨i, none, "d"⟩) (fun v => v))
        [("svc", "img")]
        [("svc", (⟨"img", some "1", "sha"⟩ : VersionedImage))]
      = ([("svc", (⟨"img", some "1", "sha"⟩ : VersionedImage))], false) :=
  (update_images_write_iff
      (OrchWorld.mk (fun i => ⟨i, none, "d"⟩) (fun v => v))
      [("svc", "img")]
      [("svc", ⟨"img", some "1", "sha"⟩)]).2.2
    (by
      intro e he
      simp only [List.mem_singleton] at he
      subst he
      exact ⟨⟨"img", some "1", "sha"⟩, rfl, rfl⟩)
    (by
      intro e1 he1 e2 he2 p1 p2 hp1 hp2 _
      simp only [List.mem_singleton] at he1 he2
      subst he1
      subst he2
      simp [mapLookup] at hp1 hp2
      rw [← hp1, ← hp2])

/-! ## Claims about the resolution engine (`oci.rs`, `docker_hub.rs`,
`unified.rs`) -/

/-- C1.  When re-pulling the manifest for a previously resolved image yields
the same digest, the update variant returns exactly the previous record —
version and digest unchanged — and the only registry operation performed is
that single manifest-and-config pull: no config parse, no manifest pull, no
tag-list page, no DockerHub fetch (so no label work and no alias scanning),
for any fuel and starting trace. -/
theorem get_updated_short_circuit (w : World) (vi : VersionedImage)
    (fuel : Nat) (image : Reference) (raw : String) (t0 : Trace)
    (href : w.refFromStr vi.image = .ok image)
    (hpull : w.pullManifestAndConfig image = .ok (vi.digest, raw)) :
    get_updated_version_and_digest w vi fuel t0
      = .ok ((vi.version, vi.digest),
          { t0 with manifestConfigPulls := t0.manifestConfigPulls + 1 })
    ∧ get_updated_versioned_image w vi fuel t0
      = .ok (vi,
          { t0 with manifestConfigPulls := t0.manifestConfigPulls + 1 }) := by
  have h1 : get_updated_version_and_digest w vi fuel t0
      = .ok ((vi.version, vi.digest),
          { t0 with manifestConfigPulls := t0.manifestConfigPulls + 1 }) := by
    simp only [get_updated_version_and_digest, href]
    simp only [pullManifestAndConfigT, hpull]
    simp
  refine ⟨h1, ?_⟩
  unfold get_updated_versioned_image
  rw [h1]

/-- Witness for C1, on a concrete world whose config bytes would not even
parse: starting from the zero trace, the result is the previous record and
the trace shows one manifest-and-config pull and nothing else. -/
theorem get_updated_short_circuit_witness :
    get_updated_version_and_digest updateScenarioWorld
        ⟨"x:latest", some "1.0", "sha256:abc"⟩ 0 Trace.zero
      = .ok ((some "1.0", "sha256:abc"), ⟨1, 0, 0, 0, 0⟩)
    ∧ get_updated_versioned_image updateScenarioWorld
        ⟨"x:latest", some "1.0", "sha256:abc"⟩ 0 Trace.zero
      = .ok (⟨"x:latest", some "1.0", "sha256:abc"⟩, ⟨1, 0, 0, 0, 0⟩) :=
  get_updated_short_circuit updateScenarioWorld
    ⟨"x:latest", some "1.0", "sha256:abc"⟩ 0
    (Reference.with_tag "docker.io" "library/x" "latest") "rawcfg"
    Trace.zero rfl rfl

/-- C2, counterexample.  A registry whose tag listing is `["v1", "v2", "v3"]`
— hence `["v3", "v2", "v1"]` iterated in reverse — whose platform digests are
the target `"sha-t"` for `v2` and `v1` and `"sha-o" ≠ "sha-t"` for `v3`.  The
claim predicts exactly 3 manifest pulls.  The code performs 4 (trace field
`manifestPulls`): the skip loop peeks `v2` without consuming it, and the
collect loop pulls the same `v2` again before collecting it.  The returned
alias list `["v2", "v1"]` matches the claim. -/
theorem oci_alias_pull_count_counterexample :
    (ociScenarioWorld "sha-t" "sha-o").listTags
        (Reference.with_tag "registry.example" "repo" "v1") 100 none
      = .ok ["v1", "v2", "v3"]
    ∧ ["v1", "v2", "v3"].reverse = ["v3", "v2", "v1"]
    ∧ (ociScenarioWorld "sha-t" "sha-o").pullManifest
        (Reference.with_tag "registry.example" "repo" "v1")
      = .ok ("sha-t", OciManifest.Image)
    ∧ (ociScenarioWorld "sha-t" "sha-o").pullManifest
        (Reference.with_tag "registry.example" "repo" "v2")
      = .ok ("sha-t", OciManifest.Image)
    ∧ (ociScenarioWorld "sha-t" "sha-o").pullManifest
        (Reference.with_tag "registry.example" "repo" "v3")
      = .ok ("sha-o", OciManifest.Image)
    ∧ ("sha-o" : String) ≠ "sha-t"
    ∧ get_alias_oci_tags (ociScenarioWorld "sha-t" "sha-o")
        (Reference.with_tag "registry.example" "repo" "v1") "sha-t" 1
        Trace.zero
      = .ok (["v2", "v1"], ⟨0, 4, 1, 0, 0⟩)
    ∧ (4 : Nat) ≠ 3 :=
  ⟨rfl, rfl, rfl, rfl, rfl, by decide, rfl, by decide⟩

/-- C2, amended.  In the claim's scenario — any world and image whose single
tag-listing page is `["v1", "v2", "v3"]` (hence `["v3", "v2", "v1"]` iterated
in reverse), where the platform digests of `v2` and `v1` equal the target and
that of `v3` does not — `get_alias_oci_tags` returns exactly the aliases
`["v2", "v1"]` and one tag-list page, but performs exactly *4* manifest pulls
rather than 3: one for `v3`, two for `v2` (the skip loop peeks it, the
collect loop pulls it again), one for `v1`; for every world, image, target,
starting trace and sufficient fuel. -/
theorem get_alias_oci_tags_scenario (w : World) (image : Reference)
    (target dv3 : String) (fuel : Nat) (t0 : Trace)
    (p1 p2 p3 : String) (m1 m2 m3 : OciManifest)
    (hlist : w.listTags image 100 none = .ok ["v1", "v2", "v3"])
    (hm1 : w.pullManifest
      (Reference.with_tag image.registry image.repository "v1")
      = .ok (p1, m1))
    (hd1 : get_digest_from_manifest p1 m1 = .ok target)
    (hm2 : w.pullManifest
      (Reference.with_tag image.registry image.repository "v2")
      = .ok (p2, m2))
    (hd2 : get_digest_from_manifest p2 m2 = .ok target)
    (hm3 : w.pullManifest
      (Reference.with_tag image.registry image.repository "v3")
      = .ok (p3, m3))
    (hd3 : get_digest_from_manifest p3 m3 = .ok dv3)
    (hne : dv3 ≠ target) :
    get_alias_oci_tags w image target (fuel + 1) t0
      = .ok (["v2", "v1"],
          { t0 with manifestPulls := t0.manifestPulls + 4,
                    tagListPages := t0.tagListPages + 1 }) := by
  simp [get_alias_oci_tags, list_all_tags, list_all_tags_loop, listTagsT,
    skipUntilMatch, collectWhileMatch, pull_platform_digest, pullManifestT,
    tag_with_tag, hlist, hm1, hd1, hm2, hd2, hm3, hd3, hne]

/-- Witness for C2 amended on the concrete scenario world at digests
`"digA"`/`"digB"`: every hypothesis is discharged by evaluation and the
result carries exactly 4 manifest pulls and 1 tag-list page. -/
theorem get_alias_oci_tags_scenario_witness :
    get_alias_oci_tags (ociScenarioWorld "digA" "digB")
        (Reference.with_tag "registry.example" "repo" "v1") "digA" 1
        Trace.zero
      = .ok (["v2", "v1"], ⟨0, 4, 1, 0, 0⟩) :=
  get_alias_oci_tags_scenario (ociScenarioWorld "digA" "digB")
    (Reference.with_tag "registry.example" "repo" "v1") "digA" "digB" 0
    Trace.zero "digA" "digA" "digB" OciManifest.Image OciManifest.Image
    OciManifest.Image rfl rfl rfl rfl rfl rfl rfl (by decide)

/-- C5, counterexample.  The claim says pagination stops exactly when a
page's listed tag count is below the page size.  The code follows the
response's `next` links instead: here the first page lists a single tag
(1 < 100) yet carries a `next` link, so the code fetches a second page
(2 page fetches, not 1) and returns the alias `"v2"` found only there. -/
theorem dockerhub_pagination_counterexample :
    hubScenarioWorld.hubGet (hubTagsUrl "library" "repo" 100 1)
      = .ok ⟨2, some "next2", none, [⟨"v1", [⟨"amd64", some "shaO"⟩]⟩]⟩
    ∧ (1 : Nat) < 100
    ∧ get_alias_dockerhub_tags hubScenarioWorld
        (Reference.with_tag "docker.io" "repo" "t") "shaT" 2 Trace.zero
      = .ok (["v2"], ⟨0, 0, 0, 2, 0⟩)
    ∧ (2 : Nat) ≠ 1 :=
  ⟨rfl, by decide, rfl, by decide⟩

/-- C5, amended.  Pagination follows the `next` link of each response until a
response carries none (the listed tag count plays no role).  Whenever the
page fetching succeeds, a listed tag is returned as an alias iff one of its
architecture-filtered images carries the target digest, and no manifest (or
manifest-and-config) pull is ever performed. -/
theorem get_alias_dockerhub_tags_spec (w : World) (image : Reference)
    (digest : String) (fuel : Nat) (t0 : Trace) (resp : TagsResponse)
    (t1 : Trace)
    (hfetch : fetch_all_dockerhub_tags w image 100 fuel t0
      = .ok (resp, t1)) :
    get_alias_dockerhub_tags w image digest fuel t0
      = .ok ((resp.results.filter (fun tg =>
          (tg.images.filter
            (fun i => i.architecture = defaultArchitecture)).any
              (hubImageMatches digest))).map (fun tg => tg.name), t1)
    ∧ t1.manifestPulls = t0.manifestPulls
    ∧ t1.manifestConfigPulls = t0.manifestConfigPulls := by
  constructor
  · simp only [get_alias_dockerhub_tags, hfetch]
    rw [hub_filter_fusion]
  · rw [fetch_all_dockerhub_tags] at hfetch
    rcases hparts : dockerhub_parts image with e | p
    · rw [hparts] at hfetch
      exact absurd hfetch (by simp)
    · rw [hparts] at hfetch
      dsimp only at hfetch
      obtain ⟨h1, h2, -, -⟩ :=
        fetch_hub_loop_preserves w fuel _ [] 0 t0 resp t1 hfetch
      exact ⟨h1, h2⟩

/-- Witness for C5 amended on the two-page chained world: the alias found on
the second page is returned, with two page fetches and zero manifest
pulls. -/
theorem get_alias_dockerhub_tags_spec_witness :
    get_alias_dockerhub_tags hubScenarioWorld
        (Reference.with_tag "docker.io" "repo" "t") "shaT" 2 Trace.zero
      = .ok (["v2"], ⟨0, 0, 0, 2, 0⟩)
    ∧ (⟨0, 0, 0, 2, 0⟩ : Trace).manifestPulls = Trace.zero.manifestPulls
    ∧ (⟨0, 0, 0, 2, 0⟩ : Trace).manifestConfigPulls
        = Trace.zero.manifestConfigPulls :=
  get_alias_dockerhub_tags_spec hubScenarioWorld
    (Reference.with_tag "docker.io" "repo" "t") "shaT" 2 Trace.zero
    ⟨2, none, none,
      [⟨"v1", [⟨"amd64", some "shaO"⟩]⟩, ⟨"v2", [⟨"amd64", some "shaT"⟩]⟩]⟩
    ⟨0, 0, 0, 2, 0⟩ rfl

end Nirion
